import Mathlib

/-!
Verification development for the mixed-radix Cooley–Tukey FFT of
src/src/fft/src/fft_mixed_radix.c (liquid-dsp).

The C file is embedded shallowly over exact complex arithmetic:
complex sample buffers become functions from natural-number indices to
complex values, the two execution loops become folds of per-iteration
state updates over the loop-counter list, the factor scan of the plan
builder becomes a fuel-based structural recursion (one unit of fuel per
loop iteration), and the fatal exit(1) path of the builder becomes the
none case of an Option-returning constructor.  The two sub-plans are
created by the external plan factory FFT(_create_plan), which is not
part of this file of the repository; following the spec, a sub-plan is
represented by the transform it applies from scratch buffer t0 into
scratch buffer t1.
-/

noncomputable section

namespace MixedRadix

open Finset

/-- Modelled from the spec: the integer direction code for a forward
transform, defined in the external liquid header (not part of this
core).  The spec fixes a two-valued direction enum, FORWARD and
INVERSE, with FORWARD mapped to twiddle sign -1. -/
def FFT_FORWARD : Int := 0

/-- Modelled from the spec: the integer direction code for an inverse
transform, distinct from FFT_FORWARD. -/
def FFT_REVERSE : Int := 1

/-- Twiddle sign selection, line 109 of fft_mixed_radix.c:
d = (direction == FFT_FORWARD) ? -1.0 : 1.0. -/
def dirSign (direction : Int) : ℝ :=
  if direction = FFT_FORWARD then -1 else 1

/-- One twiddle-table entry, line 111 of fft_mixed_radix.c:
cexpf(_Complex_I * d * 2 * M_PI * i / nfft), over exact complex
arithmetic. -/
def twiddleVal (N : ℕ) (d : ℝ) (j : ℕ) : ℂ :=
  Complex.exp (Complex.I * d * 2 * Real.pi * j / N)

/-- The exact M-point discrete Fourier transform with exponent sign d:
the reference semantics of a transform of size M, and the transform a
sub-plan is assumed to apply (from t0 into t1). -/
def dft (M : ℕ) (d : ℝ) (f : ℕ → ℂ) (m : ℕ) : ℂ :=
  ∑ n ∈ Finset.range M, f n * twiddleVal M d (m * n)

/-- The fields of struct FFT(plan_s) that the mixed-radix code reads or
writes.  x and y are the caller-owned input/output buffers; xbuf is the
internal staging copy data.mixedradix.x; t0 and t1 are the shared
scratch buffers data.mixedradix.t0/t1; subplanP and subplanQ are the
transforms applied by the two sub-plans created at lines 92-103. -/
structure Plan where
  nfft : ℕ
  x : ℕ → ℂ
  y : ℕ → ℂ
  flags : Int
  direction : Int
  Q : ℕ
  P : ℕ
  t0 : ℕ → ℂ
  t1 : ℕ → ℂ
  xbuf : ℕ → ℂ
  subplanP : (ℕ → ℂ) → ℕ → ℂ
  subplanQ : (ℕ → ℂ) → ℕ → ℂ
  twiddle : ℕ → ℂ

/-- The factor-scan loop body, lines 63-68: starting at index i with
fuel remaining iterations, return the first index dividing n, or 0 when
the loop terminates without a hit.  One unit of fuel corresponds to one
iteration of the C loop for (i = 2; i < nfft; i++). -/
def factorScanAux (n : ℕ) : ℕ → ℕ → ℕ
  | 0, _ => 0
  | fuel + 1, i => if n % i = 0 then i else factorScanAux n fuel (i + 1)

/-- The factor scan of lines 61-68: the loop runs for indices i with
start ≤ i < n, hence n - start iterations. -/
def factorScan (n start : ℕ) : ℕ :=
  factorScanAux n (n - start) start

/-- The plan record as populated on the successful path of
FFT(_create_plan_mixed_radix), lines 46-113.  malloc leaves t0, t1 and
the staging buffer indeterminate; the model fills them with 0, and no
claim depends on their initial contents.  The sub-plans are created by
the external FFT(_create_plan) with sizes P and Q, both from t0 into
t1, sharing the plan direction; modelled from the spec, they apply the
exact P- and Q-point transforms with the plan's twiddle sign. -/
def mkPlan (nfft : ℕ) (x y : ℕ → ℂ) (dir flags : Int) : Plan :=
  let direction := if dir = FFT_FORWARD then FFT_FORWARD else FFT_REVERSE
  let Q := factorScan nfft 2
  let P := nfft / Q
  { nfft := nfft
    x := x
    y := y
    flags := flags
    direction := direction
    Q := Q
    P := P
    t0 := fun _ => 0
    t1 := fun _ => 0
    xbuf := fun _ => 0
    subplanP := dft P (dirSign direction)
    subplanQ := dft Q (dirSign direction)
    twiddle := fun i => twiddleVal nfft (dirSign direction) i }

/-- FFT(_create_plan_mixed_radix), lines 41-114.  The fatal error path
for prime nfft (lines 69-72: fprintf plus exit(1)) is embedded as the
none case, surfacing the failure as a typed construction error. -/
def fft_create_plan_mixed_radix (nfft : ℕ) (x y : ℕ → ℂ)
    (dir flags : Int) : Option Plan :=
  if factorScan nfft 2 = 0 then none else some (mkPlan nfft x y dir flags)

/-- The mutable state touched by FFT(_execute_mixed_radix): the staging
buffer s (data.mixedradix.x), the scratch buffers t0 and t1, and the
output buffer y. -/
structure ExecState where
  s : ℕ → ℂ
  t0 : ℕ → ℂ
  t1 : ℕ → ℂ
  y : ℕ → ℂ

/-- Index n is written during pass-1 iteration i (lines 168-169): the
loop writes x[Q*k+i] for k in [0,P), and for i < Q these are exactly
the n with n mod Q = i and n div Q < P. -/
def pass1WriteCond (P Q i n : ℕ) : Prop := n % Q = i ∧ n / Q < P

instance (P Q i n : ℕ) : Decidable (pass1WriteCond P Q i n) := by
  unfold pass1WriteCond
  exact inferInstance

/-- Index m is written during pass-2 iteration i (lines 191-192): the
loop writes y[k*P+i] for k in [0,Q), and for i < P these are exactly
the m with m mod P = i and m div P < Q. -/
def pass2WriteCond (P Q i m : ℕ) : Prop := m % P = i ∧ m / P < Q

instance (P Q i m : ℕ) : Decidable (pass2WriteCond P Q i m) := by
  unfold pass2WriteCond
  exact inferInstance

/-- One iteration of the first execute loop, lines 159-176: gather
column i of the staging buffer into t0 (t0[k] = x[Q*k+i], k < P), run
the P-point sub-plan from t0 into t1, then write back with twiddles
(x[Q*k+i] = t1[k] * twiddle[i*k]). -/
def pass1Step (P Q : ℕ) (subP : (ℕ → ℂ) → ℕ → ℂ) (tw : ℕ → ℂ)
    (e : ExecState) (i : ℕ) : ExecState where
  s := fun n =>
    if pass1WriteCond P Q i n then
      subP (fun k => if k < P then e.s (Q * k + i) else e.t0 k) (n / Q) *
        tw (i * (n / Q))
    else e.s n
  t0 := fun k => if k < P then e.s (Q * k + i) else e.t0 k
  t1 := fun k =>
    if k < P then subP (fun j => if j < P then e.s (Q * j + i) else e.t0 j) k
    else e.t1 k
  y := e.y

/-- One iteration of the second execute loop, lines 182-199: gather row
i of the staging buffer into t0 (t0[k] = x[Q*i+k], k < Q), run the
Q-point sub-plan from t0 into t1, then transpose into the output
(y[k*P+i] = t1[k]). -/
def pass2Step (P Q : ℕ) (subQ : (ℕ → ℂ) → ℕ → ℂ)
    (e : ExecState) (i : ℕ) : ExecState where
  s := e.s
  t0 := fun k => if k < Q then e.s (Q * i + k) else e.t0 k
  t1 := fun k =>
    if k < Q then subQ (fun j => if j < Q then e.s (Q * i + j) else e.t0 j) k
    else e.t1 k
  y := fun m =>
    if pass2WriteCond P Q i m then
      subQ (fun j => if j < Q then e.s (Q * i + j) else e.t0 j) (m / P)
    else e.y m

/-- FFT(_execute_mixed_radix), lines 137-200: copy the input buffer
into the staging buffer (memmove of nfft samples, line 150), run the Q
iterations of pass 1, run the P iterations of pass 2, and store the
final buffer contents back into the plan.  Only the staging buffer, the
two scratch buffers and the output buffer are written. -/
def fft_execute_mixed_radix (p : Plan) : Plan :=
  let e0 : ExecState :=
    { s := fun n => if n < p.nfft then p.x n else p.xbuf n
      t0 := p.t0
      t1 := p.t1
      y := p.y }
  let e1 := (List.range p.Q).foldl (pass1Step p.P p.Q p.subplanP p.twiddle) e0
  let e2 := (List.range p.P).foldl (pass2Step p.P p.Q p.subplanQ) e1
  { p with xbuf := e2.s, t0 := e2.t0, t1 := e2.t1, y := e2.y }

/-- The heap resources acquired by FFT(_create_plan_mixed_radix), in
order of allocation. -/
inductive Resource where
  | planRecord
  | scratchT0
  | scratchT1
  | stagingBuf
  | subplanArray
  | subplanP
  | subplanQ
  | twiddleTable
deriving DecidableEq

/-- Allocation trace of FFT(_create_plan_mixed_radix), lines 46-113.
The plan record is allocated at line 48, before the factor scan.  On
the prime path the code prints the error and calls exit(1) (lines
69-72) without freeing anything: the error value carries the list of
resources still allocated when the error is reported.  On the
successful path the ok value carries the resources owned by the
returned plan, in allocation order (lines 81, 82, 85, 89, 92, 99,
107). -/
def createPlanAllocTrace (nfft : ℕ) : Except (List Resource) (List Resource) :=
  if factorScan nfft 2 = 0 then
    Except.error [Resource.planRecord]
  else
    Except.ok ([Resource.planRecord] ++ [Resource.scratchT0, Resource.scratchT1,
      Resource.stagingBuf, Resource.subplanArray, Resource.subplanP,
      Resource.subplanQ, Resource.twiddleTable])

/-! Factor-scan lemmas: the scan returns 0 exactly when no index in its
range divides n, and otherwise returns the least dividing index. -/

lemma factorScanAux_eq_zero (n : ℕ) :
    ∀ fuel i, 2 ≤ i → factorScanAux n fuel i = 0 →
      ∀ j, i ≤ j → j < i + fuel → ¬ (n % j = 0) := by
  intro fuel
  induction fuel with
  | zero =>
    intro i _ _ j hij hj
    omega
  | succ fuel ih =>
    intro i hi h j hij hj hmod
    simp only [factorScanAux] at h
    by_cases hc : n % i = 0
    · rw [if_pos hc] at h
      omega
    · rw [if_neg hc] at h
      rcases eq_or_lt_of_le hij with rfl | hlt
      · exact hc hmod
      · exact ih (i + 1) (by omega) h j hlt (by omega) hmod

lemma factorScanAux_found (n : ℕ) :
    ∀ fuel i, factorScanAux n fuel i ≠ 0 →
      i ≤ factorScanAux n fuel i ∧ factorScanAux n fuel i < i + fuel ∧
      n % (factorScanAux n fuel i) = 0 ∧
      ∀ j, i ≤ j → j < factorScanAux n fuel i → ¬ (n % j = 0) := by
  intro fuel
  induction fuel with
  | zero =>
    intro i h
    simp [factorScanAux] at h
  | succ fuel ih =>
    intro i h
    simp only [factorScanAux] at h ⊢
    by_cases hc : n % i = 0
    · rw [if_pos hc] at h ⊢
      exact ⟨le_refl i, by omega, hc, by omega⟩
    · rw [if_neg hc] at h ⊢
      obtain ⟨h1, h2, h3, h4⟩ := ih (i + 1) h
      refine ⟨by omega, by omega, h3, ?_⟩
      intro j hij hjlt hmod
      rcases eq_or_lt_of_le hij with rfl | hlt
      · exact hc hmod
      · exact h4 j hlt hjlt hmod

lemma create_eq_none_iff (n : ℕ) (x y : ℕ → ℂ) (dir flags : Int) :
    fft_create_plan_mixed_radix n x y dir flags = none ↔ factorScan n 2 = 0 := by
  unfold fft_create_plan_mixed_radix
  split <;> simp_all

lemma create_eq_some (n : ℕ) (x y : ℕ → ℂ) (dir flags : Int) (p : Plan)
    (h : fft_create_plan_mixed_radix n x y dir flags = some p) :
    p = mkPlan n x y dir flags ∧ factorScan n 2 ≠ 0 := by
  unfold fft_create_plan_mixed_radix at h
  by_cases hc : factorScan n 2 = 0
  · rw [if_pos hc] at h
    cases h
  · rw [if_neg hc] at h
    injection h with h
    exact ⟨h.symm, hc⟩

/-- C2.  On every successful construction, the stored factor Q is the
smallest integer in [2, n) dividing n, it coincides with the least
prime factor of n, the stored P is n / Q, and P * Q = n exactly. -/
theorem claim2_smallest_factor (n : ℕ) (x y : ℕ → ℂ) (dir flags : Int) (p : Plan)
    (h : fft_create_plan_mixed_radix n x y dir flags = some p) :
    2 ≤ p.Q ∧ p.Q < n ∧ p.Q ∣ n ∧
    (∀ j, 2 ≤ j → j ∣ n → j < n → p.Q ≤ j) ∧
    p.Q = Nat.minFac n ∧ p.P = n / p.Q ∧ p.P * p.Q = n := by
  obtain ⟨rfl, hQ0⟩ := create_eq_some n x y dir flags p h
  have hQ0' : factorScanAux n (n - 2) 2 ≠ 0 := hQ0
  obtain ⟨h1, h2, h3, h4⟩ := factorScanAux_found n (n - 2) 2 hQ0'
  have hqlt : factorScanAux n (n - 2) 2 < n := by omega
  have hdvd : factorScanAux n (n - 2) 2 ∣ n := Nat.dvd_of_mod_eq_zero h3
  have hmin : ∀ j, 2 ≤ j → j ∣ n → j < n → factorScanAux n (n - 2) 2 ≤ j := by
    intro j hj2 hjdvd hjlt
    by_contra hcon
    obtain ⟨c, rfl⟩ := hjdvd
    exact h4 j hj2 (by omega) (Nat.mul_mod_right j c)
  have h2n : 2 ≤ n := by omega
  have hmf_le : Nat.minFac n ≤ factorScanAux n (n - 2) 2 :=
    Nat.minFac_le_of_dvd h1 hdvd
  have hmf2 : 2 ≤ Nat.minFac n :=
    (Nat.minFac_prime (by omega : n ≠ 1)).two_le
  have hmf_eq : factorScanAux n (n - 2) 2 = Nat.minFac n :=
    le_antisymm (hmin _ hmf2 (Nat.minFac_dvd n) (by omega)) hmf_le
  exact ⟨h1, hqlt, hdvd, hmin, hmf_eq, rfl, Nat.div_mul_cancel hdvd⟩

/-- C3.  Construction fails (the fatal prime path, embedded as a typed
none result to the caller) exactly when n has no divisor in [2, n),
i.e. when n is prime or n < 4. -/
theorem claim3_fail_iff_prime (n : ℕ) (x y : ℕ → ℂ) (dir flags : Int) :
    fft_create_plan_mixed_radix n x y dir flags = none ↔
      (Nat.Prime n ∨ n < 4) := by
  rw [create_eq_none_iff]
  constructor
  · intro h0
    by_cases h4 : n < 4
    · exact Or.inr h4
    · left
      by_contra hnp
      obtain ⟨m, hmdvd, hm2, hmlt⟩ := Nat.exists_dvd_of_not_prime2 (by omega) hnp
      obtain ⟨c, rfl⟩ := hmdvd
      exact factorScanAux_eq_zero (m * c) (m * c - 2) 2 (le_refl 2) h0 m hm2
        (by omega) (Nat.mul_mod_right m c)
  · intro h
    rcases h with hp | h4
    · by_contra h0
      obtain ⟨h1, h2, h3, -⟩ := factorScanAux_found n (n - 2) 2 h0
      have hdvd := Nat.dvd_of_mod_eq_zero h3
      have := hp.eq_one_or_self_of_dvd _ hdvd
      omega
    · interval_cases n <;> decide

/-- C6 counterexample.  At the concrete prime size 5 the construction
fails with the plan record (allocated at line 48) still held: the
failure path reports the error with a nonempty set of outstanding
allocations, refuting the claim that everything allocated before the
failure point, including the plan record, is released first. -/
theorem claim6_counterexample :
    createPlanAllocTrace 5 = Except.error [Resource.planRecord] ∧
    [Resource.planRecord] ≠ ([] : List Resource) := by
  exact ⟨rfl, by decide⟩

/-- C6 amended.  When construction fails because n is prime, the
failure occurs before any buffer or sub-plan allocation: the only
outstanding allocation at the failure point is the plan record itself,
which is reported leaked (it is not released before the error is
reported; the process exits instead). -/
theorem claim6_amended_no_buffer_leak (n : ℕ) (l : List Resource)
    (h : createPlanAllocTrace n = Except.error l) :
    l = [Resource.planRecord] := by
  unfold createPlanAllocTrace at h
  by_cases hc : factorScan n 2 = 0
  · rw [if_pos hc] at h
    injection h with h
    exact h.symm
  · rw [if_neg hc] at h
    cases h

/-- C6 witness: the amended statement applied at the concrete prime
size 5. -/
theorem claim6_amended_witness :
    createPlanAllocTrace 5 = Except.error [Resource.planRecord] ∧
    [Resource.planRecord] = [Resource.planRecord] :=
  ⟨rfl, claim6_amended_no_buffer_leak 5 [Resource.planRecord] rfl⟩

/-- C10.  The builder stores direction FFT_FORWARD exactly when the
direction argument equals FFT_FORWARD and FFT_REVERSE for every other
value; whether construction fails does not depend on the direction
argument; and the stored direction determines the twiddle sign through
dirSign. -/
theorem claim10_direction_normalization (n : ℕ) (x y : ℕ → ℂ) (dir flags : Int) :
    ((fft_create_plan_mixed_radix n x y dir flags = none) ↔
      (fft_create_plan_mixed_radix n x y FFT_FORWARD flags = none)) ∧
    ∀ p, fft_create_plan_mixed_radix n x y dir flags = some p →
      (dir = FFT_FORWARD → p.direction = FFT_FORWARD) ∧
      (dir ≠ FFT_FORWARD → p.direction = FFT_REVERSE) ∧
      p.twiddle = fun i => twiddleVal n (dirSign p.direction) i := by
  constructor
  · rw [create_eq_none_iff, create_eq_none_iff]
  · intro p hp
    obtain ⟨rfl, -⟩ := create_eq_some n x y dir flags p hp
    refine ⟨?_, ?_, rfl⟩
    · intro hd
      show (if dir = FFT_FORWARD then FFT_FORWARD else FFT_REVERSE) = FFT_FORWARD
      rw [if_pos hd]
    · intro hd
      show (if dir = FFT_FORWARD then FFT_FORWARD else FFT_REVERSE) = FFT_REVERSE
      rw [if_neg hd]

/-- C10 witness: at size 6 with the out-of-range direction argument 5,
construction succeeds and normalizes the stored direction to
FFT_REVERSE. -/
theorem claim10_witness :
    ((5 : Int) = FFT_FORWARD →
      (mkPlan 6 (fun _ => 0) (fun _ => 0) 5 0).direction = FFT_FORWARD) ∧
    ((5 : Int) ≠ FFT_FORWARD →
      (mkPlan 6 (fun _ => 0) (fun _ => 0) 5 0).direction = FFT_REVERSE) ∧
    (mkPlan 6 (fun _ => 0) (fun _ => 0) 5 0).twiddle =
      fun i => twiddleVal 6 (dirSign (mkPlan 6 (fun _ => 0) (fun _ => 0) 5 0).direction) i :=
  (claim10_direction_normalization 6 (fun _ => 0) (fun _ => 0) 5 0).2
    (mkPlan 6 (fun _ => 0) (fun _ => 0) 5 0) rfl

/-- C4.  The builder populates twiddle entry i with
exp(sign * 2 pi I * i / n), sign -1 when the stored direction is
FFT_FORWARD and +1 otherwise; every entry has unit modulus, so no 1/n
normalization is folded into the table. -/
theorem claim4_twiddle_population (n : ℕ) (x y : ℕ → ℂ) (dir flags : Int)
    (p : Plan) (h : fft_create_plan_mixed_radix n x y dir flags = some p)
    (i : ℕ) (hi : i < n) :
    (p.direction = FFT_FORWARD →
      p.twiddle i = Complex.exp (Complex.I * (-1 : ℝ) * 2 * Real.pi * i / n)) ∧
    (p.direction ≠ FFT_FORWARD →
      p.twiddle i = Complex.exp (Complex.I * (1 : ℝ) * 2 * Real.pi * i / n)) ∧
    Complex.abs (p.twiddle i) = 1 := by
  obtain ⟨rfl, -⟩ := create_eq_some n x y dir flags p h
  set pd := (mkPlan n x y dir flags).direction with hpd
  have htw : (mkPlan n x y dir flags).twiddle i = twiddleVal n (dirSign pd) i := rfl
  refine ⟨?_, ?_, ?_⟩
  · intro hd
    rw [htw]
    unfold twiddleVal dirSign
    rw [if_pos hd]
  · intro hd
    rw [htw]
    unfold twiddleVal dirSign
    rw [if_neg hd]
  · rw [htw]
    unfold twiddleVal
    have hre : Complex.I * (dirSign pd : ℝ) * 2 * Real.pi * i / n
        = ((dirSign pd * 2 * Real.pi * i / n : ℝ) : ℂ) * Complex.I := by
      push_cast
      ring
    rw [hre, Complex.abs_exp_ofReal_mul_I]

/-- C2 witness: the claim applied to the concrete successful
construction at n = 6, where the scan returns Q = 2. -/
theorem claim2_witness :
    (fft_create_plan_mixed_radix 6 (fun _ => 0) (fun _ => 0) 0 0 =
      some (mkPlan 6 (fun _ => 0) (fun _ => 0) 0 0)) ∧
    (2 ≤ (mkPlan 6 (fun _ => (0:ℂ)) (fun _ => 0) 0 0).Q ∧
     (mkPlan 6 (fun _ => (0:ℂ)) (fun _ => 0) 0 0).Q < 6 ∧
     (mkPlan 6 (fun _ => (0:ℂ)) (fun _ => 0) 0 0).Q ∣ 6 ∧
     (∀ j, 2 ≤ j → j ∣ 6 → j < 6 → (mkPlan 6 (fun _ => (0:ℂ)) (fun _ => 0) 0 0).Q ≤ j) ∧
     (mkPlan 6 (fun _ => (0:ℂ)) (fun _ => 0) 0 0).Q = Nat.minFac 6 ∧
     (mkPlan 6 (fun _ => (0:ℂ)) (fun _ => 0) 0 0).P = 6 / (mkPlan 6 (fun _ => (0:ℂ)) (fun _ => 0) 0 0).Q ∧
     (mkPlan 6 (fun _ => (0:ℂ)) (fun _ => 0) 0 0).P * (mkPlan 6 (fun _ => (0:ℂ)) (fun _ => 0) 0 0).Q = 6) :=
  ⟨rfl, claim2_smallest_factor 6 (fun _ => 0) (fun _ => 0) 0 0
    (mkPlan 6 (fun _ => 0) (fun _ => 0) 0 0) rfl⟩

/-- C4 witness: the claim applied to the concrete plan of size 6 built
with direction argument FFT_FORWARD, at table index 3. -/
theorem claim4_witness :
    (3 < 6) ∧
    (((mkPlan 6 (fun _ => (0:ℂ)) (fun _ => 0) FFT_FORWARD 0).direction = FFT_FORWARD →
      (mkPlan 6 (fun _ => (0:ℂ)) (fun _ => 0) FFT_FORWARD 0).twiddle 3 =
        Complex.exp (Complex.I * (-1 : ℝ) * 2 * Real.pi * 3 / 6)) ∧
    ((mkPlan 6 (fun _ => (0:ℂ)) (fun _ => 0) FFT_FORWARD 0).direction ≠ FFT_FORWARD →
      (mkPlan 6 (fun _ => (0:ℂ)) (fun _ => 0) FFT_FORWARD 0).twiddle 3 =
        Complex.exp (Complex.I * (1 : ℝ) * 2 * Real.pi * 3 / 6)) ∧
    Complex.abs ((mkPlan 6 (fun _ => (0:ℂ)) (fun _ => 0) FFT_FORWARD 0).twiddle 3) = 1) :=
  ⟨by decide, claim4_twiddle_population 6 (fun _ => 0) (fun _ => 0) FFT_FORWARD 0
    (mkPlan 6 (fun _ => 0) (fun _ => 0) FFT_FORWARD 0) rfl 3 (by decide)⟩

/-! Algebra of twiddle factors: additivity in the exponent, collapse of
full turns, and factor extraction, the three identities behind the
Cooley-Tukey decomposition. -/

lemma twiddleVal_add (N : ℕ) (d : ℝ) (a b : ℕ) :
    twiddleVal N d (a + b) = twiddleVal N d a * twiddleVal N d b := by
  unfold twiddleVal
  rw [← Complex.exp_add]
  congr 1
  push_cast
  ring

lemma twiddleVal_left_factor (P Q : ℕ) (d : ℝ) (hP : P ≠ 0) (hQ : Q ≠ 0) (j : ℕ) :
    twiddleVal (P * Q) d (P * j) = twiddleVal Q d j := by
  unfold twiddleVal
  congr 1
  have hPc : (P : ℂ) ≠ 0 := Nat.cast_ne_zero.mpr hP
  have hQc : (Q : ℂ) ≠ 0 := Nat.cast_ne_zero.mpr hQ
  push_cast
  field_simp
  ring

lemma twiddleVal_right_factor (P Q : ℕ) (d : ℝ) (hP : P ≠ 0) (hQ : Q ≠ 0) (j : ℕ) :
    twiddleVal (P * Q) d (Q * j) = twiddleVal P d j := by
  rw [mul_comm P Q]
  exact twiddleVal_left_factor Q P d hQ hP j

lemma twiddleVal_full_turn (N : ℕ) (d : ℝ) (hd : d = 1 ∨ d = -1) (j : ℕ) :
    twiddleVal N d (N * j) = 1 := by
  rcases Nat.eq_zero_or_pos N with rfl | hN
  · unfold twiddleVal
    simp
  · have hNc : (N : ℂ) ≠ 0 := Nat.cast_ne_zero.mpr (by omega)
    unfold twiddleVal
    rcases hd with rfl | rfl
    · rw [← Complex.exp_int_mul_two_pi_mul_I (j : ℤ)]
      congr 1
      push_cast
      field_simp
      ring
    · rw [← Complex.exp_int_mul_two_pi_mul_I (-(j : ℤ))]
      congr 1
      push_cast
      field_simp
      ring

/-- Reindexing a sum over [0, P*Q) by n = Q*p + q. -/
lemma sum_range_mul_eq (P Q : ℕ) (hQ : 0 < Q) (f : ℕ → ℂ) :
    ∑ q ∈ Finset.range Q, ∑ p ∈ Finset.range P, f (Q * p + q) =
      ∑ n ∈ Finset.range (P * Q), f n := by
  rw [← Finset.sum_product']
  refine Finset.sum_nbij' (fun z : ℕ × ℕ => Q * z.2 + z.1)
    (fun n => (n % Q, n / Q)) ?_ ?_ ?_ ?_ ?_
  · intro a ha
    simp only [Finset.mem_product, Finset.mem_range] at ha
    simp only [Finset.mem_range]
    calc Q * a.2 + a.1 < Q * a.2 + Q := by omega
      _ = Q * (a.2 + 1) := by ring
      _ ≤ Q * P := Nat.mul_le_mul_left Q ha.2
      _ = P * Q := Nat.mul_comm Q P
  · intro n hn
    simp only [Finset.mem_range] at hn
    simp only [Finset.mem_product, Finset.mem_range]
    exact ⟨Nat.mod_lt n hQ, by rw [Nat.div_lt_iff_lt_mul hQ]; exact hn⟩
  · intro a ha
    simp only [Finset.mem_product, Finset.mem_range] at ha
    have h1 : (Q * a.2 + a.1) % Q = a.1 := by
      rw [Nat.mul_add_mod]
      exact Nat.mod_eq_of_lt ha.1
    have h2 : (Q * a.2 + a.1) / Q = a.2 := by
      rw [Nat.mul_add_div hQ, Nat.div_eq_of_lt ha.1]
      omega
    exact Prod.ext h1 h2
  · intro n _
    exact Nat.div_add_mod n Q
  · intro a _
    rfl

/-- Bound on the pass-1 twiddle index: a column index below Q times a
row index below P stays below P*Q. -/
lemma twiddle_index_lt (P Q a b : ℕ) (ha : a < Q) (hb : b < P) :
    a * b < P * Q := by
  have h1 : a * b ≤ (Q - 1) * (P - 1) :=
    Nat.mul_le_mul (by omega) (by omega)
  have h2 : (Q - 1) * (P - 1) ≤ (Q - 1) * P :=
    Nat.mul_le_mul_left (Q - 1) (by omega)
  have h3 : (Q - 1) * P < Q * P :=
    (Nat.mul_lt_mul_right (by omega : 0 < P)).mpr (by omega)
  calc a * b ≤ (Q - 1) * (P - 1) := h1
    _ ≤ (Q - 1) * P := h2
    _ < Q * P := h3
    _ = P * Q := Nat.mul_comm Q P

/-- The Cooley-Tukey exponent split: with m = P*(m/P) + m%P and
n = Q*k + q, the full-size twiddle at m*n factors into the P-point
twiddle, the correction twiddle, and the Q-point twiddle. -/
lemma twiddle_split (P Q : ℕ) (hP : 0 < P) (hQ : 0 < Q) (d : ℝ)
    (hd : d = 1 ∨ d = -1) (m k q : ℕ) :
    twiddleVal (P * Q) d (m * (Q * k + q)) =
      twiddleVal P d ((m % P) * k) * twiddleVal (P * Q) d (q * (m % P)) *
        twiddleVal Q d ((m / P) * q) := by
  have hdecomp : m * (Q * k + q) =
      (P * Q) * ((m / P) * k) +
        (P * ((m / P) * q) + (Q * ((m % P) * k) + q * (m % P))) := by
    conv_lhs => rw [← Nat.div_add_mod m P]
    ring
  rw [hdecomp, twiddleVal_add, twiddleVal_add, twiddleVal_add,
    twiddleVal_full_turn _ d hd, one_mul,
    twiddleVal_left_factor P Q d (by omega) (by omega),
    twiddleVal_right_factor P Q d (by omega) (by omega)]
  ring

/-- Orthogonality of the twiddle characters: summing the product of a
forward and an inverse twiddle over one period leaves N on the diagonal
and 0 elsewhere. -/
lemma twiddle_orth (N : ℕ) (hN : 0 < N) (m n : ℕ) (hm : m < N) (hn : n < N) :
    ∑ k ∈ Finset.range N, twiddleVal N (-1) (k * n) * twiddleVal N 1 (m * k) =
      if n = m then (N : ℂ) else 0 := by
  have hNc : (N : ℂ) ≠ 0 := Nat.cast_ne_zero.mpr (by omega)
  set z : ℂ := Complex.exp (2 * Real.pi * Complex.I * ((m : ℂ) - (n : ℂ)) / N)
    with hz
  have hterm : ∀ k, twiddleVal N (-1) (k * n) * twiddleVal N 1 (m * k) = z ^ k := by
    intro k
    rw [hz, ← Complex.exp_nat_mul]
    unfold twiddleVal
    rw [← Complex.exp_add]
    congr 1
    push_cast
    field_simp
    ring
  rw [Finset.sum_congr rfl (fun k _ => hterm k)]
  by_cases heq : n = m
  · subst heq
    have hz1 : z = 1 := by
      rw [hz]
      simp
    rw [hz1]
    simp
  · have hzN : z ^ N = 1 := by
      rw [hz, ← Complex.exp_nat_mul,
        ← Complex.exp_int_mul_two_pi_mul_I ((m : ℤ) - n)]
      congr 1
      push_cast
      field_simp
      ring
    have hz1 : z ≠ 1 := by
      rw [hz]
      intro hcon
      rw [Complex.exp_eq_one_iff] at hcon
      obtain ⟨t, ht⟩ := hcon
      have h2pi : (2 * (Real.pi : ℂ) * Complex.I) ≠ 0 := by
        simp [Real.pi_ne_zero, Complex.I_ne_zero]
      have h1 : (2 * (Real.pi : ℂ) * Complex.I) * ((m : ℂ) - (n : ℂ)) =
          (2 * (Real.pi : ℂ) * Complex.I) * ((t : ℂ) * N) := by
        field_simp at ht
        linear_combination ht
      have h2 : ((m : ℂ) - (n : ℂ)) = (t : ℂ) * N := mul_left_cancel₀ h2pi h1
      have h3 : (m : ℤ) - n = t * N := by exact_mod_cast h2
      have hmz : (m : ℤ) < N := by exact_mod_cast hm
      have hnz : (n : ℤ) < N := by exact_mod_cast hn
      have hm0 : (0 : ℤ) ≤ (m : ℤ) := Int.natCast_nonneg m
      have hn0 : (0 : ℤ) ≤ (n : ℤ) := Int.natCast_nonneg n
      have hNz : (0 : ℤ) < (N : ℤ) := by exact_mod_cast hN
      have hne : (m : ℤ) ≠ (n : ℤ) := by
        intro hc
        exact heq (by exact_mod_cast hc.symm)
      rcases lt_trichotomy t 0 with htn | rfl | htp
      · have hle : t * (N : ℤ) ≤ -N := by nlinarith
        linarith
      · simp at h3
        omega
      · have hge : (N : ℤ) ≤ t * N := by nlinarith
        linarith
    rw [geom_sum_eq hz1, hzN]
    simp [heq]

/-- Fourier inversion over exact arithmetic: an inverse-sign DFT of a
forward-sign DFT multiplies by N; nothing self-normalizes. -/
lemma dft_inversion (N : ℕ) (hN : 0 < N) (x : ℕ → ℂ) (m : ℕ) (hm : m < N) :
    dft N 1 (dft N (-1) x) m = (N : ℂ) * x m := by
  unfold dft
  calc ∑ k ∈ Finset.range N,
        (∑ n ∈ Finset.range N, x n * twiddleVal N (-1) (k * n)) *
          twiddleVal N 1 (m * k)
      = ∑ k ∈ Finset.range N, ∑ n ∈ Finset.range N,
          x n * twiddleVal N (-1) (k * n) * twiddleVal N 1 (m * k) := by
        refine Finset.sum_congr rfl fun k _ => ?_
        rw [Finset.sum_mul]
    _ = ∑ n ∈ Finset.range N, ∑ k ∈ Finset.range N,
          x n * twiddleVal N (-1) (k * n) * twiddleVal N 1 (m * k) :=
        Finset.sum_comm
    _ = ∑ n ∈ Finset.range N,
          x n * ∑ k ∈ Finset.range N,
            twiddleVal N (-1) (k * n) * twiddleVal N 1 (m * k) := by
        refine Finset.sum_congr rfl fun n _ => ?_
        rw [Finset.mul_sum]
        refine Finset.sum_congr rfl fun k _ => ?_
        ring
    _ = ∑ n ∈ Finset.range N, x n * (if n = m then (N : ℂ) else 0) := by
        refine Finset.sum_congr rfl fun n hn => ?_
        rw [twiddle_orth N hN m n hm (Finset.mem_range.mp hn)]
    _ = (N : ℂ) * x m := by
        simp only [mul_ite, mul_zero]
        rw [Finset.sum_ite_eq' (Finset.range N) m (fun n => x n * N),
          if_pos (Finset.mem_range.mpr hm)]
        ring

/-! Closed forms for the two execute loops: each loop writes disjoint
index classes (columns modulo Q in pass 1, residues modulo P in
pass 2), so the fold over the loop counters evaluates pointwise. -/

lemma pass1Step_s_apply (P Q : ℕ) (subP : (ℕ → ℂ) → ℕ → ℂ) (tw : ℕ → ℂ)
    (e : ExecState) (i n : ℕ) :
    (pass1Step P Q subP tw e i).s n =
      if pass1WriteCond P Q i n then
        subP (fun k => if k < P then e.s (Q * k + i) else e.t0 k) (n / Q) *
          tw (i * (n / Q))
      else e.s n := rfl

lemma pass1Step_t0_apply (P Q : ℕ) (subP : (ℕ → ℂ) → ℕ → ℂ) (tw : ℕ → ℂ)
    (e : ExecState) (i k : ℕ) :
    (pass1Step P Q subP tw e i).t0 k =
      if k < P then e.s (Q * k + i) else e.t0 k := rfl

lemma pass1Step_y (P Q : ℕ) (subP : (ℕ → ℂ) → ℕ → ℂ) (tw : ℕ → ℂ)
    (e : ExecState) (i : ℕ) :
    (pass1Step P Q subP tw e i).y = e.y := rfl

lemma pass2Step_s (P Q : ℕ) (subQ : (ℕ → ℂ) → ℕ → ℂ)
    (e : ExecState) (i : ℕ) :
    (pass2Step P Q subQ e i).s = e.s := rfl

lemma pass2Step_t0_apply (P Q : ℕ) (subQ : (ℕ → ℂ) → ℕ → ℂ)
    (e : ExecState) (i k : ℕ) :
    (pass2Step P Q subQ e i).t0 k =
      if k < Q then e.s (Q * i + k) else e.t0 k := rfl

lemma pass2Step_y_apply (P Q : ℕ) (subQ : (ℕ → ℂ) → ℕ → ℂ)
    (e : ExecState) (i m : ℕ) :
    (pass2Step P Q subQ e i).y m =
      if pass2WriteCond P Q i m then
        subQ (fun j => if j < Q then e.s (Q * i + j) else e.t0 j) (m / P)
      else e.y m := rfl

/-- Pass 1 closed form: folding the pass-1 step over a duplicate-free
list of column indices evaluates, at any position whose column is in
the list and whose row is in range, to the sub-transform of the
original column times the twiddle factor, and leaves every other
position unchanged. -/
lemma pass1_foldl_s (P Q : ℕ) (subP : (ℕ → ℂ) → ℕ → ℂ) (tw : ℕ → ℂ)
    (hQ : 0 < Q) :
    ∀ (l : List ℕ), l.Nodup → ∀ (e : ExecState) (n : ℕ),
      (l.foldl (pass1Step P Q subP tw) e).s n =
        if n % Q ∈ l ∧ n / Q < P then
          subP (fun k => if k < P then e.s (Q * k + n % Q) else e.t0 k) (n / Q) *
            tw ((n % Q) * (n / Q))
        else e.s n := by
  intro l
  induction l with
  | nil =>
    intro _ e n
    simp
  | cons i t ih =>
    intro hnd e n
    obtain ⟨hit, hndt⟩ := List.nodup_cons.mp hnd
    rw [List.foldl_cons, ih hndt]
    have hmodlt : n % Q < Q := Nat.mod_lt n hQ
    by_cases hA : n % Q ∈ t ∧ n / Q < P
    · have hne : n % Q ≠ i := fun hc => hit (hc ▸ hA.1)
      have hcond : n % Q ∈ i :: t ∧ n / Q < P :=
        ⟨List.mem_cons_of_mem i hA.1, hA.2⟩
      rw [if_pos hA, if_pos hcond]
      have harg : (fun k => if k < P then
            (pass1Step P Q subP tw e i).s (Q * k + n % Q)
          else (pass1Step P Q subP tw e i).t0 k) =
          (fun k => if k < P then e.s (Q * k + n % Q) else e.t0 k) := by
        funext k
        by_cases hk : k < P
        · rw [if_pos hk, if_pos hk, pass1Step_s_apply]
          have hcol : ¬ pass1WriteCond P Q i (Q * k + n % Q) := by
            intro hc
            apply hne
            have : (Q * k + n % Q) % Q = n % Q := by
              rw [Nat.mul_add_mod]
              exact Nat.mod_eq_of_lt hmodlt
            rw [← this]
            exact hc.1
          rw [if_neg hcol]
        · rw [if_neg hk, if_neg hk, pass1Step_t0_apply, if_neg hk]
      rw [harg]
    · rw [if_neg hA, pass1Step_s_apply]
      by_cases hB : pass1WriteCond P Q i n
      · have hcond : n % Q ∈ i :: t ∧ n / Q < P := by
          refine ⟨?_, hB.2⟩
          rw [hB.1]
          exact List.mem_cons_self i t
        rw [if_pos hB, if_pos hcond, hB.1]
      · have hcond : ¬ (n % Q ∈ i :: t ∧ n / Q < P) := by
          rintro ⟨hmem, hdiv⟩
          rcases List.mem_cons.mp hmem with hh | hh
          · exact hB ⟨hh, hdiv⟩
          · exact hA ⟨hh, hdiv⟩
        rw [if_neg hB, if_neg hcond]

/-- Pass 1 leaves the output buffer untouched. -/
lemma pass1_foldl_y (P Q : ℕ) (subP : (ℕ → ℂ) → ℕ → ℂ) (tw : ℕ → ℂ) :
    ∀ (l : List ℕ) (e : ExecState),
      (l.foldl (pass1Step P Q subP tw) e).y = e.y := by
  intro l
  induction l with
  | nil => intro e; rfl
  | cons i t ih =>
    intro e
    rw [List.foldl_cons, ih, pass1Step_y]

/-- Pass 2 closed form: the staging buffer is read-only during pass 2,
so folding the pass-2 step evaluates the output at any position whose
residue class is in the index list to the sub-transform of the
corresponding staging row, and leaves other positions unchanged. -/
lemma pass2_foldl_y (P Q : ℕ) (subQ : (ℕ → ℂ) → ℕ → ℂ) :
    ∀ (l : List ℕ), l.Nodup → ∀ (e : ExecState) (m : ℕ),
      (l.foldl (pass2Step P Q subQ) e).y m =
        if m % P ∈ l ∧ m / P < Q then
          subQ (fun k => if k < Q then e.s (Q * (m % P) + k) else e.t0 k) (m / P)
        else e.y m := by
  intro l
  induction l with
  | nil =>
    intro _ e m
    simp
  | cons i t ih =>
    intro hnd e m
    obtain ⟨hit, hndt⟩ := List.nodup_cons.mp hnd
    rw [List.foldl_cons, ih hndt]
    by_cases hA : m % P ∈ t ∧ m / P < Q
    · have hcond : m % P ∈ i :: t ∧ m / P < Q :=
        ⟨List.mem_cons_of_mem i hA.1, hA.2⟩
      rw [if_pos hA, if_pos hcond]
      have harg : (fun k => if k < Q then
            (pass2Step P Q subQ e i).s (Q * (m % P) + k)
          else (pass2Step P Q subQ e i).t0 k) =
          (fun k => if k < Q then e.s (Q * (m % P) + k) else e.t0 k) := by
        funext k
        by_cases hk : k < Q
        · rw [if_pos hk, if_pos hk, pass2Step_s]
        · rw [if_neg hk, if_neg hk, pass2Step_t0_apply, if_neg hk]
      rw [harg]
    · rw [if_neg hA, pass2Step_y_apply]
      by_cases hB : pass2WriteCond P Q i m
      · have hcond : m % P ∈ i :: t ∧ m / P < Q := by
          refine ⟨?_, hB.2⟩
          rw [hB.1]
          exact List.mem_cons_self i t
        rw [if_pos hB, if_pos hcond, hB.1]
      · have hcond : ¬ (m % P ∈ i :: t ∧ m / P < Q) := by
          rintro ⟨hmem, hdiv⟩
          rcases List.mem_cons.mp hmem with hh | hh
          · exact hB ⟨hh, hdiv⟩
          · exact hA ⟨hh, hdiv⟩
        rw [if_neg hB, if_neg hcond]

lemma pass1Step_t1_apply (P Q : ℕ) (subP : (ℕ → ℂ) → ℕ → ℂ) (tw : ℕ → ℂ)
    (e : ExecState) (i k : ℕ) :
    (pass1Step P Q subP tw e i).t1 k =
      if k < P then subP (fun j => if j < P then e.s (Q * j + i) else e.t0 j) k
      else e.t1 k := rfl

/-- Main correctness of the executor: when the plan factors its size as
P*Q, the sub-plans apply exact P- and Q-point DFTs of sign d, and the
twiddle table is populated with sign d, the executor writes the exact
N-point DFT of sign d of the input buffer into the output buffer. -/
lemma execute_dft (d : ℝ) (hd : d = 1 ∨ d = -1) (p : Plan)
    (hP : 2 ≤ p.P) (hQ : 2 ≤ p.Q) (hnfft : p.nfft = p.P * p.Q)
    (hsubP : p.subplanP = dft p.P d) (hsubQ : p.subplanQ = dft p.Q d)
    (htw : ∀ j, j < p.nfft → p.twiddle j = twiddleVal p.nfft d j)
    (m : ℕ) (hm : m < p.nfft) :
    (fft_execute_mixed_radix p).y m = dft p.nfft d p.x m := by
  obtain ⟨N, x, y, flags, direction, Q, P, t0b, t1b, xbuf, subP, subQ, tw⟩ := p
  dsimp only at hP hQ hnfft hsubP hsubQ htw hm ⊢
  subst hnfft
  have hP0 : 0 < P := by omega
  have hQ0 : 0 < Q := by omega
  show ((List.range P).foldl (pass2Step P Q subQ)
      ((List.range Q).foldl (pass1Step P Q subP tw)
        ⟨fun n => if n < P * Q then x n else xbuf n, t0b, t1b, y⟩)).y m
    = dft (P * Q) d x m
  rw [pass2_foldl_y P Q subQ (List.range P) (List.nodup_range _)]
  have hdivQ : m / P < Q := by
    rw [Nat.div_lt_iff_lt_mul hP0, Nat.mul_comm]
    exact hm
  have hcond1 : m % P ∈ List.range P ∧ m / P < Q :=
    ⟨List.mem_range.mpr (Nat.mod_lt m hP0), hdivQ⟩
  rw [if_pos hcond1, hsubQ]
  unfold dft
  rw [← sum_range_mul_eq P Q hQ0 (fun n => x n * twiddleVal (P * Q) d (m * n))]
  refine Finset.sum_congr rfl fun q hq => ?_
  have hqQ : q < Q := Finset.mem_range.mp hq
  dsimp only
  rw [if_pos hqQ, pass1_foldl_s P Q subP tw hQ0 (List.range Q) (List.nodup_range _)]
  have hmod : (Q * (m % P) + q) % Q = q := by
    rw [Nat.mul_add_mod]
    exact Nat.mod_eq_of_lt hqQ
  have hdiv : (Q * (m % P) + q) / Q = m % P := by
    rw [Nat.mul_add_div hQ0, Nat.div_eq_of_lt hqQ]
    omega
  rw [hmod, hdiv]
  have hcond2 : q ∈ List.range Q ∧ m % P < P :=
    ⟨List.mem_range.mpr hqQ, Nat.mod_lt m hP0⟩
  rw [if_pos hcond2, hsubP]
  have htwv := htw (q * (m % P))
    (twiddle_index_lt P Q q (m % P) hqQ (Nat.mod_lt m hP0))
  rw [htwv]
  unfold dft
  rw [Finset.sum_mul, Finset.sum_mul]
  refine Finset.sum_congr rfl fun k hk => ?_
  have hkP : k < P := Finset.mem_range.mp hk
  dsimp only
  rw [if_pos hkP]
  have hbound : Q * k + q < P * Q := by
    calc Q * k + q < Q * k + Q := by omega
      _ = Q * (k + 1) := by ring
      _ ≤ Q * P := Nat.mul_le_mul_left Q hkP
      _ = P * Q := Nat.mul_comm Q P
  rw [if_pos hbound, twiddle_split P Q hP0 hQ0 d hd m k q]
  ring

/-- C1.  For a FORWARD plan over a composite size P*Q with exact
sub-plan DFTs, one execution writes the exact N-point direct DFT of
the input buffer, sample by sample, into the output buffer. -/
theorem claim1_forward_execute_is_dft (p : Plan) (P Q : ℕ)
    (hP : 2 ≤ P) (hQ : 2 ≤ Q)
    (hnfft : p.nfft = P * Q) (hPP : p.P = P) (hQQ : p.Q = Q)
    (hdir : p.direction = FFT_FORWARD)
    (hsubP : p.subplanP = dft P (dirSign p.direction))
    (hsubQ : p.subplanQ = dft Q (dirSign p.direction))
    (htw : ∀ j, j < p.nfft →
      p.twiddle j = twiddleVal p.nfft (dirSign p.direction) j)
    (m : ℕ) (hm : m < p.nfft) :
    (fft_execute_mixed_radix p).y m =
      ∑ n ∈ Finset.range p.nfft, p.x n *
        Complex.exp (-(2 * Real.pi * Complex.I * m * n) / p.nfft) := by
  have hds : dirSign p.direction = -1 := by
    rw [hdir]
    rfl
  rw [hds] at hsubP hsubQ htw
  subst hPP hQQ
  rw [execute_dft (-1) (Or.inr rfl) p hP hQ hnfft hsubP hsubQ htw m hm]
  unfold dft
  refine Finset.sum_congr rfl fun n hn => ?_
  congr 1
  unfold twiddleVal
  congr 1
  push_cast
  ring

/-- Concrete forward plan of size 6 on a unit impulse, for the C1
witness. -/
def planC1W : Plan :=
  mkPlan 6 (fun n => if n = 0 then 1 else 0) (fun _ => 0) FFT_FORWARD 0

/-- C1 witness: the claim applied at size 6 = 3 * 2 on a unit-impulse
input, output sample 0. -/
theorem claim1_witness :
    ((2 : ℕ) ≤ 3 ∧ (2 : ℕ) ≤ 2 ∧ (0 : ℕ) < planC1W.nfft) ∧
    (fft_execute_mixed_radix planC1W).y 0 =
      ∑ n ∈ Finset.range planC1W.nfft, planC1W.x n *
        Complex.exp (-(2 * Real.pi * Complex.I * (0 : ℕ) * n) / planC1W.nfft) :=
  ⟨⟨by decide, by decide, by decide⟩,
    claim1_forward_execute_is_dft planC1W 3 2 (by decide) (by decide)
      rfl rfl rfl rfl rfl rfl (fun _ _ => rfl) 0 (by decide)⟩

/-- C5.  FORWARD followed by INVERSE of the same size, each with exact
sub-plan DFTs, reproduces N times the input: the composition does not
self-normalize. -/
theorem claim5_round_trip (pf pinv : Plan) (P1 Q1 P2 Q2 : ℕ)
    (hP1 : 2 ≤ P1) (hQ1 : 2 ≤ Q1) (hP2 : 2 ≤ P2) (hQ2 : 2 ≤ Q2)
    (hfN : pf.nfft = P1 * Q1) (hfP : pf.P = P1) (hfQ : pf.Q = Q1)
    (hfdir : pf.direction = FFT_FORWARD)
    (hfsubP : pf.subplanP = dft P1 (dirSign pf.direction))
    (hfsubQ : pf.subplanQ = dft Q1 (dirSign pf.direction))
    (hftw : ∀ j, j < pf.nfft →
      pf.twiddle j = twiddleVal pf.nfft (dirSign pf.direction) j)
    (hiN : pinv.nfft = pf.nfft) (hiN2 : pinv.nfft = P2 * Q2)
    (hiP : pinv.P = P2) (hiQ : pinv.Q = Q2)
    (hidir : pinv.direction = FFT_REVERSE)
    (hisubP : pinv.subplanP = dft P2 (dirSign pinv.direction))
    (hisubQ : pinv.subplanQ = dft Q2 (dirSign pinv.direction))
    (hitw : ∀ j, j < pinv.nfft →
      pinv.twiddle j = twiddleVal pinv.nfft (dirSign pinv.direction) j)
    (hx : pinv.x = (fft_execute_mixed_radix pf).y)
    (m : ℕ) (hm : m < pf.nfft) :
    (fft_execute_mixed_radix pinv).y m = (pf.nfft : ℂ) * pf.x m := by
  have hdsf : dirSign pf.direction = -1 := by
    rw [hfdir]
    rfl
  have hdsi : dirSign pinv.direction = 1 := by
    rw [hidir]
    rfl
  rw [hdsf] at hfsubP hfsubQ hftw
  rw [hdsi] at hisubP hisubQ hitw
  subst hfP hfQ hiP hiQ
  have hfwd : ∀ j, j < pf.nfft →
      (fft_execute_mixed_radix pf).y j = dft pf.nfft (-1) pf.x j :=
    fun j hj => execute_dft (-1) (Or.inr rfl) pf hP1 hQ1 hfN hfsubP hfsubQ hftw j hj
  have hinv : (fft_execute_mixed_radix pinv).y m = dft pinv.nfft 1 pinv.x m :=
    execute_dft 1 (Or.inl rfl) pinv hP2 hQ2 hiN2 hisubP hisubQ hitw m (by omega)
  rw [hinv, hx, hiN]
  have hcongr : dft pf.nfft 1 (fft_execute_mixed_radix pf).y m
      = dft pf.nfft 1 (dft pf.nfft (-1) pf.x) m := by
    unfold dft
    refine Finset.sum_congr rfl fun n hn => ?_
    rw [hfwd n (Finset.mem_range.mp hn)]
    rfl
  have hpos : 0 < pf.nfft := by
    rw [hfN]
    exact Nat.mul_pos (by omega) (by omega)
  rw [hcongr, dft_inversion pf.nfft hpos pf.x m hm]

/-- Concrete forward plan of size 12 for the C5 witness. -/
def planC5F : Plan :=
  mkPlan 12 (fun n => if n = 0 then 1 else 0) (fun _ => 0) FFT_FORWARD 0

/-- Concrete inverse plan of size 12 reading the forward output, for
the C5 witness. -/
def planC5I : Plan :=
  mkPlan 12 (fft_execute_mixed_radix planC5F).y (fun _ => 0) FFT_REVERSE 0

/-- C5 witness: the round trip applied at size 12 = 6 * 2, sample 0. -/
theorem claim5_witness :
    (planC5I.x = (fft_execute_mixed_radix planC5F).y ∧ (0 : ℕ) < planC5F.nfft) ∧
    (fft_execute_mixed_radix planC5I).y 0 = (planC5F.nfft : ℂ) * planC5F.x 0 :=
  ⟨⟨rfl, by decide⟩,
    claim5_round_trip planC5F planC5I 6 2 6 2
      (by decide) (by decide) (by decide) (by decide)
      rfl rfl rfl rfl rfl rfl (fun _ _ => rfl)
      rfl rfl rfl rfl rfl rfl rfl (fun _ _ => rfl)
      rfl 0 (by decide)⟩

/-- C7.  Execution mutates only the staging buffer, the two scratch
buffers and the output buffer: the caller-supplied input buffer, the
twiddle table, and every other plan field are unchanged by every call
(in this embedding the buffers are distinct plan fields, matching the
claim's disjointness hypothesis). -/
theorem claim7_execute_frame (p : Plan) :
    (fft_execute_mixed_radix p).x = p.x ∧
    (fft_execute_mixed_radix p).twiddle = p.twiddle ∧
    (fft_execute_mixed_radix p).nfft = p.nfft ∧
    (fft_execute_mixed_radix p).direction = p.direction ∧
    (fft_execute_mixed_radix p).flags = p.flags ∧
    (fft_execute_mixed_radix p).P = p.P ∧
    (fft_execute_mixed_radix p).Q = p.Q ∧
    (fft_execute_mixed_radix p).subplanP = p.subplanP ∧
    (fft_execute_mixed_radix p).subplanQ = p.subplanQ :=
  ⟨rfl, rfl, rfl, rfl, rfl, rfl, rfl, rfl, rfl⟩

/-- C8.  In pass 1 the twiddle factor applied at loop indices (i, k) is
table entry (i*k) mod N: the raw product i*k is bounded by
(Q-1)*(P-1) < N, so the unreduced index is in range and equals its
reduction modulo N, and the value written at staging position Q*k+i is
the sub-plan output times that entry. -/
theorem claim8_pass1_twiddle_index (P Q N : ℕ) (hN : N = P * Q)
    (hP : 2 ≤ P) (hQ : 2 ≤ Q) (subP : (ℕ → ℂ) → ℕ → ℂ) (tw : ℕ → ℂ)
    (e : ExecState) (i k : ℕ) (hi : i < Q) (hk : k < P) :
    i * k ≤ (Q - 1) * (P - 1) ∧ (Q - 1) * (P - 1) < N ∧
    i * k % N = i * k ∧
    (pass1Step P Q subP tw e i).s (Q * k + i) =
      (pass1Step P Q subP tw e i).t1 k * tw (i * k % N) := by
  have h1 : i * k ≤ (Q - 1) * (P - 1) := Nat.mul_le_mul (by omega) (by omega)
  have h2 : (Q - 1) * (P - 1) < N := by
    rw [hN]
    exact twiddle_index_lt P Q (Q - 1) (P - 1) (by omega) (by omega)
  have h3 : i * k % N = i * k := Nat.mod_eq_of_lt (by omega)
  refine ⟨h1, h2, h3, ?_⟩
  rw [h3, pass1Step_s_apply]
  have hdivk : (Q * k + i) / Q = k := by
    rw [Nat.mul_add_div (by omega : 0 < Q), Nat.div_eq_of_lt hi]
    omega
  have hcond : pass1WriteCond P Q i (Q * k + i) := by
    constructor
    · rw [Nat.mul_add_mod]
      exact Nat.mod_eq_of_lt hi
    · rw [hdivk]
      exact hk
  rw [if_pos hcond, hdivk, pass1Step_t1_apply, if_pos hk]

/-- All-zero execution state for the C8 witness. -/
def execStateC8W : ExecState :=
  ⟨fun _ => 0, fun _ => 0, fun _ => 0, fun _ => 0⟩

/-- C8 witness: the claim applied at P = 3, Q = 2, N = 6 and loop
indices i = 1, k = 2, where the raw index i*k = 2 is already reduced. -/
theorem claim8_witness :
    ((6 : ℕ) = 3 * 2 ∧ (1 : ℕ) < 2 ∧ (2 : ℕ) < 3) ∧
    (1 * 2 ≤ (2 - 1) * (3 - 1) ∧ (2 - 1) * (3 - 1) < 6 ∧
     1 * 2 % 6 = 1 * 2 ∧
     (pass1Step 3 2 (dft 3 (-1)) (fun j => twiddleVal 6 (-1) j)
        execStateC8W 1).s (2 * 2 + 1) =
      (pass1Step 3 2 (dft 3 (-1)) (fun j => twiddleVal 6 (-1) j)
        execStateC8W 1).t1 2 *
        (fun j => twiddleVal 6 (-1) j) (1 * 2 % 6)) :=
  ⟨⟨by decide, by decide, by decide⟩,
    claim8_pass1_twiddle_index 3 2 6 (by decide) (by decide) (by decide)
      (dft 3 (-1)) (fun j => twiddleVal 6 (-1) j) execStateC8W 1 2
      (by decide) (by decide)⟩

/-- C9.  Pass 2 writes the output positions k*P+i, i < P, k < Q: the
transpose map is injective into [0, N), every such write satisfies the
pass-2 write condition, every position below N has exactly one (i, k)
preimage, and across the loop iterations the condition covers exactly
the positions below N — so each output element is written exactly once
and never out of bounds. -/
theorem claim9_transpose_bijection (P Q : ℕ) (hP : 2 ≤ P) (hQ : 2 ≤ Q) :
    (∀ i k, i < P → k < Q → k * P + i < P * Q) ∧
    (∀ i k, i < P → k < Q → pass2WriteCond P Q i (k * P + i)) ∧
    (∀ m, m < P * Q →
      ∃! ik : ℕ × ℕ, ik.1 < P ∧ ik.2 < Q ∧ m = ik.2 * P + ik.1) ∧
    (∀ m, (∃ i, i < P ∧ pass2WriteCond P Q i m) ↔ m < P * Q) := by
  have hP0 : 0 < P := by omega
  refine ⟨?_, ?_, ?_, ?_⟩
  · intro i k hi hk
    calc k * P + i < k * P + P := by omega
      _ = (k + 1) * P := by ring
      _ ≤ Q * P := Nat.mul_le_mul_right P hk
      _ = P * Q := Nat.mul_comm Q P
  · intro i k hi hk
    have hdivk : (k * P + i) / P = k := by
      rw [Nat.mul_comm k P, Nat.mul_add_div hP0, Nat.div_eq_of_lt hi]
      omega
    constructor
    · rw [Nat.mul_comm k P, Nat.mul_add_mod]
      exact Nat.mod_eq_of_lt hi
    · rw [hdivk]
      exact hk
  · intro m hm
    refine ⟨(m % P, m / P), ⟨Nat.mod_lt m hP0, ?_, ?_⟩, ?_⟩
    · rw [Nat.div_lt_iff_lt_mul hP0, Nat.mul_comm]
      exact hm
    · rw [Nat.mul_comm]
      exact (Nat.div_add_mod m P).symm
    · rintro ⟨i, k⟩ ⟨hiP, hkQ, hmeq⟩
      have hi : m % P = i := by
        rw [hmeq, Nat.mul_comm k P, Nat.mul_add_mod]
        exact Nat.mod_eq_of_lt hiP
      have hk : m / P = k := by
        rw [hmeq, Nat.mul_comm k P, Nat.mul_add_div hP0, Nat.div_eq_of_lt hiP]
        omega
      exact Prod.ext hi.symm hk.symm
  · intro m
    constructor
    · rintro ⟨i, hiP, hcond⟩
      have h := (Nat.div_lt_iff_lt_mul hP0).mp hcond.2
      rw [Nat.mul_comm] at h
      exact h
    · intro hm
      refine ⟨m % P, Nat.mod_lt m hP0, ?_⟩
      show m % P = m % P ∧ m / P < Q
      refine ⟨rfl, ?_⟩
      rw [Nat.div_lt_iff_lt_mul hP0, Nat.mul_comm]
      exact hm

/-- C9 witness: the transpose bijection at the concrete factorization
P = 3, Q = 2. -/
theorem claim9_witness :
    (∀ i k, i < 3 → k < 2 → k * 3 + i < 3 * 2) ∧
    (∀ i k, i < 3 → k < 2 → pass2WriteCond 3 2 i (k * 3 + i)) ∧
    (∀ m, m < 3 * 2 →
      ∃! ik : ℕ × ℕ, ik.1 < 3 ∧ ik.2 < 2 ∧ m = ik.2 * 3 + ik.1) ∧
    (∀ m, (∃ i, i < 3 ∧ pass2WriteCond 3 2 i m) ↔ m < 3 * 2) :=
  claim9_transpose_bijection 3 2 (by decide) (by decide)

end MixedRadix
